import Mathlib

/-!
Shallow embedding of the npsolve state-aggregation and stepping core
(src/npsolve/core.py, src/npsolve/basic.py, src/npsolve/solvers.py).

Buffers are modelled as `List Int` (one entry per numpy array cell).
Dictionaries are modelled as association lists in insertion order, with
Python dict assignment (`d[k] = v`) replacing the value in place when the
key exists and appending otherwise, matching CPython insertion-order
semantics.  Time values are exact rationals.  NumPy floating point is
modelled by exact arithmetic.
-/

namespace Npsolve

/-- Python dict read `d[k]`: first (and only) binding for `k`. -/
def alookup {α : Type} : List (String × α) → String → Option α
  | [], _ => none
  | (k, v) :: t, key => if k = key then some v else alookup t key

/-- Python dict assignment `d[k] = v`: replaces in place, else appends. -/
def setVal {α : Type} : List (String × α) → String → α → List (String × α)
  | [], key, v => [(key, v)]
  | (k, w) :: t, key, v =>
    if k = key then (key, v) :: t else (k, w) :: setVal t key v

/-- Python `d.keys()` in insertion order. -/
def keys {α : Type} (l : List (String × α)) : List String := l.map Prod.fst

/-- numpy read `buf[start:stop]` (slices clip at the buffer length). -/
def readRange (buf : List Int) (start stop : Nat) : List Int :=
  (buf.drop start).take (stop - start)

/-- numpy in-place slice assignment `buf[start:start+len(val)] = val`
(callers establish `start + val.length ≤ buf.length`). -/
def writeRange (buf : List Int) (start : Nat) (val : List Int) : List Int :=
  buf.take start ++ val ++ buf.drop (start + val.length)

theorem length_writeRange (buf : List Int) (start : Nat) (val : List Int)
    (h : start + val.length ≤ buf.length) :
    (writeRange buf start val).length = buf.length := by
  simp only [writeRange, List.length_append, List.length_take, List.length_drop]
  omega

theorem getElem?_writeRange_lt (buf : List Int) (start : Nat) (val : List Int)
    (j : Nat) (hj : j < start) (hb : start ≤ buf.length) :
    (writeRange buf start val)[j]? = buf[j]? := by
  have hlen : (buf.take start).length = start := by
    simp [List.length_take]; omega
  rw [writeRange, List.append_assoc, List.getElem?_append, hlen, if_pos hj,
    List.getElem?_take, if_pos hj]

theorem getElem?_writeRange_ge (buf : List Int) (start : Nat) (val : List Int)
    (j : Nat) (hj : start + val.length ≤ j) (hb : start ≤ buf.length) :
    (writeRange buf start val)[j]? = buf[j]? := by
  have hlen : (buf.take start).length = start := by
    simp [List.length_take]; omega
  rw [writeRange, List.append_assoc,
    List.getElem?_append_right (by rw [hlen]; omega), hlen,
    List.getElem?_append_right (by omega), List.getElem?_drop]
  congr 1
  omega

theorem take_writeRange_full (buf : List Int) (start : Nat) (val : List Int)
    (hb : start ≤ buf.length) :
    (writeRange buf start val).take (start + val.length) =
      buf.take start ++ val := by
  rw [writeRange, List.take_left' (by simp [List.length_take]; omega)]

theorem readRange_writeRange_self (buf : List Int) (start : Nat)
    (val : List Int) (hb : start + val.length ≤ buf.length) :
    readRange (writeRange buf start val) start (start + val.length) = val := by
  have hlen : (buf.take start).length = start := by
    simp [List.length_take]; omega
  rw [readRange, writeRange, List.append_assoc, List.drop_left' hlen,
    Nat.add_sub_cancel_left, List.take_left' rfl]

/-- A half-open index range `[start, stop)`, Python `slice(start, stop)`. -/
structure Slc where
  start : Nat
  stop : Nat
deriving DecidableEq

/-- A numpy sub-range view of a buffer: the assigned range together with the
`writeable` flag set by `Slicer.get_view`.  The buffer itself is passed
explicitly at each read or write, which models numpy aliasing: reads and
writes through the view act on the shared flat buffer. -/
structure View where
  slc : Slc
  writeable : Bool
deriving DecidableEq

/-- Number of cells of `buf[start:stop]` after Python slice clipping. -/
def sliceLen (slc : Slc) (n : Nat) : Nat :=
  min slc.stop n - min slc.start n

/-- numpy read through a view (`view[:]`, zero-copy in the source). -/
def View.read (v : View) (buf : List Int) : List Int :=
  readRange buf v.slc.start v.slc.stop

/-- numpy in-place assignment through a view (`view[:] = val`).  A
non-writeable view raises `ValueError`; a shape mismatch raises
`ValueError` (scalar broadcasting is not used by the stepping core). -/
def View.write (v : View) (buf : List Int) (val : List Int) :
    Except String (List Int) :=
  if v.writeable then
    if val.length = sliceLen v.slc buf.length then
      Except.ok (writeRange buf (min v.slc.start buf.length) val)
    else Except.error "ValueError: could not broadcast input array"
  else Except.error "ValueError: assignment destination is read-only"

/-- `core.Slicer`: `_slices` maps variable names to ranges, `_i` is the
running total length.  Values are 1-d (`np.atleast_1d` is applied by the
caller: a scalar is a one-element list). -/
structure Slicer where
  slices : List (String × Slc)
  i : Nat
deriving DecidableEq

/-- `Slicer()` with no initial dictionary. -/
def Slicer.empty : Slicer := ⟨[], 0⟩

/-- `Slicer.add`: assigns the next `len(val)` indices to `key`.  Note the
source performs a plain dict assignment with no duplicate check. -/
def Slicer.add (s : Slicer) (key : String) (val : List Int) : Slicer :=
  { slices := setVal s.slices key ⟨s.i, s.i + val.length⟩,
    i := s.i + val.length }

/-- `Slicer.add_dict`: apply `add` over the mapping in iteration order. -/
def Slicer.add_dict (s : Slicer) (dct : List (String × List Int)) : Slicer :=
  dct.foldl (fun s kv => s.add kv.1 kv.2) s

/-- `Slicer(dct)`: construct and add the whole dictionary. -/
def Slicer.ofDict (dct : List (String × List Int)) : Slicer :=
  Slicer.empty.add_dict dct

/-- `Slicer.get_slice`: dict read, `none` models `KeyError`. -/
def Slicer.get_slice (s : Slicer) (key : String) : Option Slc :=
  alookup s.slices key

/-- `Slicer.get_view`: sub-range view with the requested writeable flag. -/
def Slicer.get_view (s : Slicer) (key : String) (writeable : Bool) :
    Option View :=
  (s.get_slice key).map (fun slc => ⟨slc, writeable⟩)

/-- One scatter write `buf[slices[key]] = val` used by `get_state_vec` and by
the return-buffer writes of the steppers (`ret_dct[name][:] = val`).  An
unregistered name raises `KeyError`; a length mismatch with the (clipped)
slice raises `ValueError`. -/
def scatterWrite (slices : List (String × Slc)) (buf : List Int)
    (kv : String × List Int) : Except String (List Int) :=
  match alookup slices kv.1 with
  | none => Except.error ("KeyError: " ++ kv.1)
  | some slc =>
    if kv.2.length = sliceLen slc buf.length then
      Except.ok (writeRange buf (min slc.start buf.length) kv.2)
    else Except.error "ValueError: could not broadcast input array"

/-- Sequence of scatter writes with fail-fast error propagation. -/
def foldWrite (slices : List (String × Slc)) (buf : List Int)
    (dct : List (String × List Int)) : Except String (List Int) :=
  dct.foldl
    (fun acc kv => do
      let b ← acc
      scatterWrite slices b kv)
    (Except.ok buf)

/-- `Slicer.get_state_vec`: allocate `np.zeros(self._i)` and scatter each
entry of the mapping into its assigned range. -/
def Slicer.get_state_vec (s : Slicer) (dct : List (String × List Int)) :
    Except String (List Int) :=
  foldWrite s.slices (List.replicate s.i (0 : Int)) dct

/-- Total number of cells of a name-to-values mapping. -/
def totalLen (items : List (String × List Int)) : Nat :=
  (items.map (fun kv => kv.2.length)).sum

/-- Cells taken by the first `j` entries (the offset of entry `j`). -/
def sizesBefore (items : List (String × List Int)) (j : Nat) : Nat :=
  totalLen (items.take j)

/-- The slice table the claims describe: consecutive half-open ranges in
insertion order starting at offset `i`. -/
def buildSlices (i : Nat) : List (String × List Int) → List (String × Slc)
  | [] => []
  | (k, v) :: rest => (k, ⟨i, i + v.length⟩) :: buildSlices (i + v.length) rest

theorem keys_append {α : Type} (l₁ l₂ : List (String × α)) :
    keys (l₁ ++ l₂) = keys l₁ ++ keys l₂ := by
  simp [keys]

theorem setVal_append {α : Type} (l : List (String × α)) (k : String) (v : α)
    (h : k ∉ keys l) : setVal l k v = l ++ [(k, v)] := by
  induction l with
  | nil => rfl
  | cons p t ih =>
    obtain ⟨pk, pv⟩ := p
    simp only [keys, List.map_cons, List.mem_cons] at h
    push_neg at h
    simp only [setVal, if_neg (Ne.symm h.1)]
    rw [ih (by simpa [keys] using h.2), List.cons_append]

theorem alookup_eq_none_of_not_mem {α : Type} (l : List (String × α))
    (k : String) (h : k ∉ keys l) : alookup l k = none := by
  induction l with
  | nil => rfl
  | cons p t ih =>
    obtain ⟨pk, pv⟩ := p
    simp only [keys, List.map_cons, List.mem_cons] at h
    push_neg at h
    simp only [alookup, if_neg (Ne.symm h.1)]
    exact ih (by simpa [keys] using h.2)

theorem alookup_of_mem_nodup {α : Type} (l : List (String × α))
    (kv : String × α) (hnd : (keys l).Nodup) (hm : kv ∈ l) :
    alookup l kv.1 = some kv.2 := by
  induction l with
  | nil => cases hm
  | cons p t ih =>
    simp only [keys, List.map_cons, List.nodup_cons] at hnd
    rcases List.mem_cons.mp hm with h | h
    · subst h; simp [alookup]
    · have hne : p.1 ≠ kv.1 := by
        intro he
        exact hnd.1 (he ▸ (List.mem_map.mpr ⟨kv, h, rfl⟩))
      simp only [alookup, if_neg hne]
      exact ih (by simpa [keys] using hnd.2) h

theorem mem_keys_of_alookup_some {α : Type} (l : List (String × α))
    (k : String) (v : α) (h : alookup l k = some v) : k ∈ keys l := by
  induction l with
  | nil => cases h
  | cons p t ih =>
    obtain ⟨pk, pv⟩ := p
    by_cases he : pk = k
    · simp [keys, he]
    · simp only [alookup, if_neg he] at h
      simp only [keys, List.map_cons, List.mem_cons]
      right
      simpa [keys] using ih h

theorem sizesBefore_zero (items : List (String × List Int)) :
    sizesBefore items 0 = 0 := by
  simp [sizesBefore, totalLen]

theorem sizesBefore_cons (k : String) (v : List Int)
    (rest : List (String × List Int)) (j : Nat) :
    sizesBefore ((k, v) :: rest) (j + 1) = v.length + sizesBefore rest j := by
  simp [sizesBefore, totalLen]

theorem totalLen_append (l₁ l₂ : List (String × List Int)) :
    totalLen (l₁ ++ l₂) = totalLen l₁ + totalLen l₂ := by
  simp [totalLen]

theorem sizesBefore_le_totalLen (items : List (String × List Int)) (j : Nat) :
    sizesBefore items j ≤ totalLen items := by
  conv_rhs => rw [← List.take_append_drop j items]
  rw [totalLen_append]
  exact Nat.le_add_right _ _

theorem sizesBefore_mono (items : List (String × List Int)) {j k : Nat}
    (h : j ≤ k) : sizesBefore items j ≤ sizesBefore items k := by
  induction k with
  | zero => simp [Nat.le_zero.mp h]
  | succ k ih =>
    rcases Nat.lt_or_ge j (k + 1) with hlt | hge
    · have hjk : j ≤ k := Nat.lt_succ_iff.mp hlt
      refine (ih hjk).trans ?_
      unfold sizesBefore
      rw [List.take_succ, totalLen_append]
      exact Nat.le_add_right _ _
    · have : j = k + 1 := Nat.le_antisymm h hge
      exact this ▸ Nat.le_refl _

theorem sizesBefore_length (items : List (String × List Int)) :
    sizesBefore items items.length = totalLen items := by
  simp [sizesBefore, List.take_length]

theorem length_buildSlices (items : List (String × List Int)) (i : Nat) :
    (buildSlices i items).length = items.length := by
  induction items generalizing i with
  | nil => rfl
  | cons p rest ih => simp [buildSlices, ih]

theorem keys_buildSlices (items : List (String × List Int)) (i : Nat) :
    keys (buildSlices i items) = keys items := by
  induction items generalizing i with
  | nil => rfl
  | cons p rest ih =>
    obtain ⟨pk, pv⟩ := p
    simp only [buildSlices, keys, List.map_cons] at ih ⊢
    rw [ih]


theorem add_dict_fresh :
    ∀ (items : List (String × List Int)) (s : Slicer),
      (keys items).Nodup → (∀ k ∈ keys items, k ∉ keys s.slices) →
      (s.add_dict items).slices = s.slices ++ buildSlices s.i items ∧
        (s.add_dict items).i = s.i + totalLen items := by
  intro items
  induction items with
  | nil => intro s _ _; simp [Slicer.add_dict, buildSlices, totalLen]
  | cons p rest ih =>
    intro s hnd hfresh
    obtain ⟨pk, pv⟩ := p
    have hpk : pk ∉ keys s.slices := hfresh pk (by simp [keys])
    have hadd : (s.add pk pv).slices = s.slices ++ [(pk, ⟨s.i, s.i + pv.length⟩)] :=
      setVal_append _ _ _ hpk
    have hnd' : pk ∉ List.map Prod.fst rest ∧ (List.map Prod.fst rest).Nodup := by
      have := hnd
      simp only [keys, List.map_cons, List.nodup_cons] at this
      exact this
    have hndr : (keys rest).Nodup := hnd'.2
    have hpk_rest : pk ∉ keys rest := hnd'.1
    have hfresh2 : ∀ k ∈ keys rest, k ∉ keys (s.add pk pv).slices := by
      intro k hk
      rw [hadd, keys_append]
      simp only [List.mem_append, keys, List.map_cons, List.map_nil]
      push_neg
      refine ⟨hfresh k (by simp [keys] at hk ⊢; exact Or.inr hk), ?_⟩
      simp only [List.mem_singleton]
      intro he
      exact hpk_rest (he ▸ hk)
    have hdd : Slicer.add_dict s ((pk, pv) :: rest) =
        Slicer.add_dict (s.add pk pv) rest := by
      simp [Slicer.add_dict]
    obtain ⟨h1, h2⟩ := ih (s.add pk pv) hndr hfresh2
    constructor
    · rw [hdd, h1, hadd]
      have hsi : (s.add pk pv).i = s.i + pv.length := rfl
      rw [hsi, List.append_assoc]
      rfl
    · rw [hdd, h2]
      have hsi : (s.add pk pv).i = s.i + pv.length := rfl
      rw [hsi, totalLen]
      simp [totalLen]
      omega

theorem ofDict_slices (items : List (String × List Int))
    (hnd : (keys items).Nodup) :
    (Slicer.ofDict items).slices = buildSlices 0 items := by
  have := add_dict_fresh items Slicer.empty hnd (by intro k _; simp [Slicer.empty, keys])
  simpa [Slicer.ofDict, Slicer.empty] using this.1

theorem ofDict_i (items : List (String × List Int))
    (hnd : (keys items).Nodup) :
    (Slicer.ofDict items).i = totalLen items := by
  have := add_dict_fresh items Slicer.empty hnd (by intro k _; simp [Slicer.empty, keys])
  simpa [Slicer.ofDict, Slicer.empty] using this.2

theorem getElem?_buildSlices (items : List (String × List Int)) (i j : Nat)
    (h : j < items.length) :
    (buildSlices i items)[j]? =
      some ((items.get ⟨j, h⟩).1,
        ⟨i + sizesBefore items j, i + sizesBefore items (j + 1)⟩) := by
  induction items generalizing i j with
  | nil => cases h
  | cons p rest ih =>
    obtain ⟨pk, pv⟩ := p
    cases j with
    | zero =>
      simp [buildSlices, sizesBefore_zero, sizesBefore_cons]
    | succ j =>
      have h2 : j < rest.length := Nat.lt_of_succ_lt_succ h
      simp only [buildSlices, List.getElem?_cons_succ]
      rw [ih _ j h2]
      simp [sizesBefore_cons, Nat.add_assoc]

theorem alookup_buildSlices (items : List (String × List Int)) (i j : Nat)
    (h : j < items.length) (hnd : (keys items).Nodup) :
    alookup (buildSlices i items) (items.get ⟨j, h⟩).1 =
      some ⟨i + sizesBefore items j, i + sizesBefore items (j + 1)⟩ := by
  induction items generalizing i j with
  | nil => cases h
  | cons p rest ih =>
    obtain ⟨pk, pv⟩ := p
    have hnd' : pk ∉ List.map Prod.fst rest ∧ (List.map Prod.fst rest).Nodup := by
      have := hnd
      simp only [keys, List.map_cons, List.nodup_cons] at this
      exact this
    have hnd2 : (keys rest).Nodup := hnd'.2
    have hpk_rest : pk ∉ keys rest := hnd'.1
    cases j with
    | zero =>
      simp [buildSlices, alookup, sizesBefore_zero, sizesBefore_cons]
    | succ j =>
      have h2 : j < rest.length := Nat.lt_of_succ_lt_succ h
      have hkey : ((((pk, pv) : String × List Int) :: rest).get ⟨j + 1, h⟩).1 =
          (rest.get ⟨j, h2⟩).1 := rfl
      have hne : pk ≠ (rest.get ⟨j, h2⟩).1 := by
        intro he
        exact hpk_rest
          (he ▸ (List.mem_map.mpr ⟨rest.get ⟨j, h2⟩, List.get_mem rest j h2, rfl⟩))
      rw [hkey]
      simp only [buildSlices, alookup, if_neg hne]
      rw [ih (i + pv.length) j h2 hnd2]
      simp [sizesBefore_cons, Nat.add_assoc]

theorem totalLen_cons (k : String) (v : List Int)
    (rest : List (String × List Int)) :
    totalLen ((k, v) :: rest) = v.length + totalLen rest := by
  simp [totalLen]

theorem mem_buildSlices_bounds :
    ∀ (items : List (String × List Int)) (i : Nat) (kv : String × Slc),
      kv ∈ buildSlices i items →
      i ≤ kv.2.start ∧ kv.2.stop ≤ i + totalLen items := by
  intro items
  induction items with
  | nil => intro i kv h; cases h
  | cons p rest ih =>
    intro i kv h
    obtain ⟨pk, pv⟩ := p
    rcases List.mem_cons.mp h with h1 | h1
    · subst h1
      simp only [totalLen_cons]
      exact ⟨Nat.le_refl i, by omega⟩
    · have := ih (i + pv.length) kv h1
      simp only [totalLen_cons]
      exact ⟨by omega, by omega⟩

theorem exists_slice_of_lt :
    ∀ (items : List (String × List Int)) (i m : Nat),
      i ≤ m → m < i + totalLen items →
      ∃ kv ∈ buildSlices i items, kv.2.start ≤ m ∧ m < kv.2.stop := by
  intro items
  induction items with
  | nil =>
    intro i m h1 h2
    simp [totalLen] at h2
    omega
  | cons p rest ih =>
    intro i m h1 h2
    obtain ⟨pk, pv⟩ := p
    by_cases hm : m < i + pv.length
    · exact ⟨(pk, ⟨i, i + pv.length⟩), List.mem_cons_self _ _, h1, hm⟩
    · push_neg at hm
      rw [totalLen_cons] at h2
      obtain ⟨kv, hmem, hb⟩ := ih (i + pv.length) m hm (by omega)
      exact ⟨kv, List.mem_cons_of_mem _ hmem, hb⟩

/-- The partition property C2 asserts of a populated `Slicer`: names kept in
insertion order, total length the sum of arities, slice `j` exactly the
half-open range from the `j`-th running offset to the next, pairwise
non-overlap, and exact coverage of `[0, total_length)`. -/
def slicesPartitionOf (items : List (String × List Int)) : Prop :=
  keys (Slicer.ofDict items).slices = keys items ∧
  (Slicer.ofDict items).i = totalLen items ∧
  (∀ j (hj : j < (Slicer.ofDict items).slices.length),
    ((Slicer.ofDict items).slices.get ⟨j, hj⟩).2.start = sizesBefore items j ∧
    ((Slicer.ofDict items).slices.get ⟨j, hj⟩).2.stop =
      sizesBefore items (j + 1)) ∧
  (∀ j k (hj : j < (Slicer.ofDict items).slices.length)
    (hk : k < (Slicer.ofDict items).slices.length), j < k →
    ((Slicer.ofDict items).slices.get ⟨j, hj⟩).2.stop ≤
      ((Slicer.ofDict items).slices.get ⟨k, hk⟩).2.start) ∧
  (∀ m, m < (Slicer.ofDict items).i ↔
    ∃ kv ∈ (Slicer.ofDict items).slices, kv.2.start ≤ m ∧ m < kv.2.stop)

/-- C2: for any set of registered variables with distinct names, added to a
Slicer in any order, the assigned slices are contiguous, pairwise
non-overlapping, ordered by insertion order, and their union is exactly
`[0, total_length)` with `total_length` the sum of the arities. -/
theorem claim_C2_slicer_partition (items : List (String × List Int))
    (hnd : (keys items).Nodup) : slicesPartitionOf items := by
  have hs := ofDict_slices items hnd
  have hi := ofDict_i items hnd
  have hlen : (Slicer.ofDict items).slices.length = items.length := by
    rw [hs, length_buildSlices]
  have hidx : ∀ j (hj : j < (Slicer.ofDict items).slices.length),
      ((Slicer.ofDict items).slices.get ⟨j, hj⟩).2.start = sizesBefore items j ∧
      ((Slicer.ofDict items).slices.get ⟨j, hj⟩).2.stop =
        sizesBefore items (j + 1) := by
    intro j hj
    have hj2 : j < items.length := hlen ▸ hj
    have h1 := getElem?_buildSlices items 0 j hj2
    rw [← hs] at h1
    have h2 : (Slicer.ofDict items).slices[j]? =
        some ((Slicer.ofDict items).slices.get ⟨j, hj⟩) := by
      rw [List.get_eq_getElem]
      exact List.getElem?_eq_getElem hj
    rw [h2] at h1
    have h3 := Option.some.inj h1
    rw [h3]
    exact ⟨Nat.zero_add _, Nat.zero_add _⟩
  refine ⟨by rw [hs, keys_buildSlices], hi, hidx, ?_, ?_⟩
  · intro j k hj hk hjk
    rw [(hidx j hj).2, (hidx k hk).1]
    exact sizesBefore_mono items hjk
  · intro m
    constructor
    · intro hm
      rw [hi] at hm
      rw [hs]
      exact exists_slice_of_lt items 0 m (Nat.zero_le m) (by omega)
    · rintro ⟨kv, hmem, hb1, hb2⟩
      rw [hs] at hmem
      have := (mem_buildSlices_bounds items 0 kv hmem).2
      rw [hi]
      omega

/-- Witness for C2 at a concrete variable set: a scalar `a` and a
two-element `b`. -/
theorem claim_C2_slicer_partition_witness :
    (keys [("a", [(1 : Int)]), ("b", [2, 3])]).Nodup ∧
      slicesPartitionOf [("a", [(1 : Int)]), ("b", [2, 3])] :=
  ⟨by decide, claim_C2_slicer_partition _ (by decide)⟩

theorem foldl_scatter_error (slices : List (String × Slc))
    (rest : List (String × List Int)) (e : String) :
    rest.foldl
      (fun acc kv => do
        let b ← acc
        scatterWrite slices b kv)
      (Except.error e) = Except.error e := by
  induction rest with
  | nil => rfl
  | cons kv rest ih => simpa [Except.bind] using ih

theorem foldWrite_cons_ok (slices : List (String × Slc)) (buf b : List Int)
    (kv : String × List Int) (rest : List (String × List Int))
    (h : scatterWrite slices buf kv = Except.ok b) :
    foldWrite slices buf (kv :: rest) = foldWrite slices b rest := by
  simp only [foldWrite, List.foldl_cons]
  have hb : (do
      let x ← Except.ok buf
      scatterWrite slices x kv) = scatterWrite slices buf kv := rfl
  rw [hb, h]

theorem foldWrite_cons_error (slices : List (String × Slc)) (buf : List Int)
    (kv : String × List Int) (rest : List (String × List Int)) (e : String)
    (h : scatterWrite slices buf kv = Except.error e) :
    foldWrite slices buf (kv :: rest) = Except.error e := by
  simp only [foldWrite, List.foldl_cons]
  have hb : (do
      let x ← Except.ok buf
      scatterWrite slices x kv) = scatterWrite slices buf kv := rfl
  rw [hb, h]
  exact foldl_scatter_error slices rest e

theorem foldWrite_consecutive (slices : List (String × Slc)) :
    ∀ (items : List (String × List Int)) (i : Nat) (buf : List Int),
      buf.length = i + totalLen items →
      (∀ j (h : j < items.length),
        alookup slices (items.get ⟨j, h⟩).1 =
          some ⟨i + sizesBefore items j, i + sizesBefore items (j + 1)⟩) →
      foldWrite slices buf items =
        Except.ok (buf.take i ++ (items.map (fun kv => kv.2)).flatten) := by
  intro items
  induction items with
  | nil =>
    intro i buf hlen _
    simp only [totalLen, List.map_nil, List.sum_nil, Nat.add_zero] at hlen
    simp [foldWrite, List.take_of_length_le (le_of_eq hlen)]
  | cons p rest ih =>
    intro i buf hlen H
    obtain ⟨pk, pv⟩ := p
    have hbound : i + pv.length ≤ buf.length := by
      rw [hlen, totalLen_cons]; omega
    have h0 := H 0 (by simp)
    have hslc0 : alookup slices pk = some ⟨i, i + pv.length⟩ := by
      simpa [sizesBefore_zero, sizesBefore_cons] using h0
    have hsw : scatterWrite slices buf (pk, pv) =
        Except.ok (writeRange buf i pv) := by
      simp only [scatterWrite, hslc0]
      have h1 : min (i + pv.length) buf.length = i + pv.length := by omega
      have h2 : min i buf.length = i := by omega
      rw [if_pos (by simp [sliceLen, h1, h2])]
      rw [h2]
    rw [foldWrite_cons_ok slices buf (writeRange buf i pv) (pk, pv) rest hsw]
    have hlen1 : (writeRange buf i pv).length = i + pv.length + totalLen rest := by
      rw [length_writeRange buf i pv hbound, hlen, totalLen_cons]
      omega
    have H2 : ∀ j (h : j < rest.length),
        alookup slices (rest.get ⟨j, h⟩).1 =
          some ⟨i + pv.length + sizesBefore rest j,
            i + pv.length + sizesBefore rest (j + 1)⟩ := by
      intro j h
      have := H (j + 1) (by simpa using Nat.succ_lt_succ h)
      have hkey : ((((pk, pv) : String × List Int) :: rest).get
          ⟨j + 1, by simpa using Nat.succ_lt_succ h⟩).1 = (rest.get ⟨j, h⟩).1 := rfl
      rw [hkey] at this
      rw [this]
      have e1 : i + sizesBefore ((pk, pv) :: rest) (j + 1) =
          i + pv.length + sizesBefore rest j := by
        rw [sizesBefore_cons]; omega
      have e2 : i + sizesBefore ((pk, pv) :: rest) (j + 1 + 1) =
          i + pv.length + sizesBefore rest (j + 1) := by
        rw [sizesBefore_cons]; omega
      rw [e1, e2]
    rw [ih (i + pv.length) (writeRange buf i pv) hlen1 H2,
      take_writeRange_full buf i pv (by omega)]
    simp [List.append_assoc]

theorem readRange_flatten :
    ∀ (items : List (String × List Int)) (j : Nat) (h : j < items.length),
      readRange ((items.map (fun kv => kv.2)).flatten)
        (sizesBefore items j) (sizesBefore items (j + 1)) =
        (items.get ⟨j, h⟩).2 := by
  intro items
  induction items with
  | nil => intro j h; cases h
  | cons p rest ih =>
    intro j h
    obtain ⟨pk, pv⟩ := p
    cases j with
    | zero =>
      simp only [sizesBefore_zero, sizesBefore_cons, sizesBefore_zero,
        List.map_cons, List.flatten_cons, readRange, Nat.add_zero,
        Nat.sub_zero, List.drop_zero]
      rw [List.take_left' rfl]
      rfl
    | succ j =>
      have h2 : j < rest.length := Nat.lt_of_succ_lt_succ h
      have hkey : ((((pk, pv) : String × List Int) :: rest).get ⟨j + 1, h⟩).2 =
          (rest.get ⟨j, h2⟩).2 := rfl
      rw [hkey]
      simp only [sizesBefore_cons, List.map_cons, List.flatten_cons, readRange]
      rw [List.drop_append_eq_append_drop, List.drop_eq_nil_of_le (by omega),
        List.nil_append, Nat.add_sub_cancel_left]
      have e1 : pv.length + sizesBefore rest (j + 1) -
          (pv.length + sizesBefore rest j) =
          sizesBefore rest (j + 1) - sizesBefore rest j := by omega
      rw [e1]
      exact ih j h2

/-- C3: building the flat vector with `get_state_vec` from a mapping whose
names are exactly the registered variables, then reading it back through the
per-name views of `get_view`, reproduces every input value exactly, with no
arithmetic applied. -/
theorem claim_C3_round_trip (items : List (String × List Int))
    (hnd : (keys items).Nodup) :
    ∃ sv, (Slicer.ofDict items).get_state_vec items = Except.ok sv ∧
      ∀ j (h : j < items.length),
        ∃ v, (Slicer.ofDict items).get_view (items.get ⟨j, h⟩).1 false = some v ∧
          v.read sv = (items.get ⟨j, h⟩).2 := by
  refine ⟨(items.map (fun kv => kv.2)).flatten, ?_, ?_⟩
  · rw [Slicer.get_state_vec, ofDict_slices items hnd, ofDict_i items hnd]
    have hbuf : (List.replicate (totalLen items) (0 : Int)).length =
        0 + totalLen items := by simp
    have H : ∀ j (h : j < items.length),
        alookup (buildSlices 0 items) (items.get ⟨j, h⟩).1 =
          some ⟨0 + sizesBefore items j, 0 + sizesBefore items (j + 1)⟩ :=
      fun j h => alookup_buildSlices items 0 j h hnd
    rw [foldWrite_consecutive (buildSlices 0 items) items 0 _ hbuf H]
    simp
  · intro j h
    refine ⟨⟨⟨sizesBefore items j, sizesBefore items (j + 1)⟩, false⟩, ?_, ?_⟩
    · rw [Slicer.get_view, Slicer.get_slice, ofDict_slices items hnd]
      rw [alookup_buildSlices items 0 j h hnd]
      simp
    · simp only [View.read]
      exact readRange_flatten items j h

/-- Witness for C3 at a concrete mapping: a scalar `a` and a two-element
`b`. -/
theorem claim_C3_round_trip_witness :
    (keys [("a", [(1 : Int)]), ("b", [2, 3])]).Nodup ∧
      ∃ sv, (Slicer.ofDict [("a", [(1 : Int)]), ("b", [2, 3])]).get_state_vec
          [("a", [(1 : Int)]), ("b", [2, 3])] = Except.ok sv ∧
        ∀ j (h : j < ([("a", [(1 : Int)]), ("b", [2, 3])] :
            List (String × List Int)).length),
          ∃ v, (Slicer.ofDict [("a", [(1 : Int)]), ("b", [2, 3])]).get_view
              (([("a", [(1 : Int)]), ("b", [2, 3])] :
                List (String × List Int)).get ⟨j, h⟩).1 false = some v ∧
            v.read sv = (([("a", [(1 : Int)]), ("b", [2, 3])] :
              List (String × List Int)).get ⟨j, h⟩).2 :=
  ⟨by decide, claim_C3_round_trip _ (by decide)⟩

/-- C4: a view obtained with `writeable=False` rejects any attempted
in-place mutation (numpy raises `ValueError`, leaving the buffer as it was),
while a view obtained with `writeable=True` mutates the shared buffer in
place, so the change is visible through any other view of the same range
and through the flat buffer itself. -/
theorem claim_C4_write_isolation (s : Slicer) (key : String)
    (buf val : List Int) :
    (∀ v, s.get_view key false = some v →
      v.write buf val =
        Except.error "ValueError: assignment destination is read-only") ∧
    (∀ v, s.get_view key true = some v →
      v.slc.stop ≤ buf.length → v.slc.start ≤ v.slc.stop →
      val.length = v.slc.stop - v.slc.start →
      ∃ buf2, v.write buf val = Except.ok buf2 ∧
        (∀ v2 : View, v2.slc = v.slc → v2.read buf2 = val) ∧
        readRange buf2 v.slc.start v.slc.stop = val ∧
        buf2.length = buf.length) := by
  constructor
  · intro v hv
    rw [Slicer.get_view] at hv
    obtain ⟨slc, _, hv2⟩ := Option.map_eq_some'.mp hv
    rw [← hv2]
    simp [View.write]
  · intro v hv hstop hss hval
    rw [Slicer.get_view] at hv
    obtain ⟨slc, _, hv2⟩ := Option.map_eq_some'.mp hv
    have hw : v.writeable = true := by rw [← hv2]
    have h1 : min v.slc.stop buf.length = v.slc.stop := by omega
    have h2 : min v.slc.start buf.length = v.slc.start := by omega
    have hsl : sliceLen v.slc buf.length = v.slc.stop - v.slc.start := by
      rw [sliceLen, h1, h2]
    have hstop2 : v.slc.stop = v.slc.start + val.length := by omega
    refine ⟨writeRange buf v.slc.start val, ?_, ?_, ?_, ?_⟩
    · rw [View.write, if_pos hw, if_pos (by rw [hsl, hval]), h2]
    · intro v2 hv2eq
      rw [View.read, hv2eq, hstop2]
      exact readRange_writeRange_self buf v.slc.start val (by omega)
    · rw [hstop2]
      exact readRange_writeRange_self buf v.slc.start val (by omega)
    · exact length_writeRange buf v.slc.start val (by omega)

/-- Witness for C4: slicer over `a` (scalar) and `b` (two cells), buffer
`[10, 20, 30]`, attempted write `[7, 8]` to `b`. -/
theorem claim_C4_write_isolation_witness :
    (Slicer.ofDict [("a", [(1 : Int)]), ("b", [2, 3])]).get_view "b" false =
        some ⟨⟨1, 3⟩, false⟩ ∧
    View.write ⟨⟨1, 3⟩, false⟩ [10, 20, 30] [7, 8] =
        Except.error "ValueError: assignment destination is read-only" ∧
    ∃ buf2, View.write ⟨⟨1, 3⟩, true⟩ [10, 20, 30] [7, 8] = Except.ok buf2 ∧
      (∀ v2 : View, v2.slc = ⟨1, 3⟩ → v2.read buf2 = [7, 8]) ∧
      readRange buf2 1 3 = [7, 8] ∧
      buf2.length = 3 := by
  have h := claim_C4_write_isolation
    (Slicer.ofDict [("a", [(1 : Int)]), ("b", [2, 3])]) "b" [10, 20, 30] [7, 8]
  refine ⟨by decide, h.1 ⟨⟨1, 3⟩, false⟩ (by decide), ?_⟩
  exact h.2 ⟨⟨1, 3⟩, true⟩ (by decide) (by decide) (by decide) (by decide)

theorem alookup_append_none {α : Type} (l₁ l₂ : List (String × α)) (k : String)
    (h : alookup l₁ k = none) : alookup (l₁ ++ l₂) k = alookup l₂ k := by
  induction l₁ with
  | nil => rfl
  | cons p t ih =>
    obtain ⟨pk, pv⟩ := p
    by_cases he : pk = k
    · simp [alookup, he] at h
    · simp only [alookup, if_neg he] at h
      simp only [List.cons_append, alookup, if_neg he]
      exact ih h

theorem isSome_alookup_of_mem_keys {α : Type} (l : List (String × α))
    (k : String) (h : k ∈ keys l) : (alookup l k).isSome := by
  induction l with
  | nil => cases h
  | cons p t ih =>
    obtain ⟨pk, pv⟩ := p
    by_cases he : pk = k
    · simp [alookup, he]
    · simp only [keys, List.map_cons, List.mem_cons] at h
      rcases h with h | h
      · exact absurd h.symm he
      · simp only [alookup, if_neg he]
        exact ih (by simpa [keys] using h)

theorem not_mem_keys_of_alookup_none {α : Type} (l : List (String × α))
    (k : String) (h : alookup l k = none) : k ∉ keys l := by
  intro hm
  have := isSome_alookup_of_mem_keys l k hm
  rw [h] at this
  cases this

/-- Python `dct.update(d)` restricted to association lists. -/
def updateAll {α : Type} (dct d : List (String × α)) : List (String × α) :=
  d.foldl (fun m kv => setVal m kv.1 kv.2) dct

theorem updateAll_append {α : Type} :
    ∀ (d dct : List (String × α)), (keys d).Nodup →
      (∀ kv ∈ d, alookup dct kv.1 = none) →
      updateAll dct d = dct ++ d := by
  intro d
  induction d with
  | nil => intro dct _ _; simp [updateAll]
  | cons p rest ih =>
    intro dct hnd hfr
    obtain ⟨pk, pv⟩ := p
    have hnd' : pk ∉ List.map Prod.fst rest ∧ (List.map Prod.fst rest).Nodup := by
      have := hnd
      simp only [keys, List.map_cons, List.nodup_cons] at this
      exact this
    have hstep : setVal dct pk pv = dct ++ [(pk, pv)] :=
      setVal_append dct pk pv
        (not_mem_keys_of_alookup_none dct pk (hfr (pk, pv) (List.mem_cons_self _ _)))
    have hfr2 : ∀ kv ∈ rest, alookup (dct ++ [(pk, pv)]) kv.1 = none := by
      intro kv hkv
      have hne : pk ≠ kv.1 := by
        intro he
        exact hnd'.1 (he ▸ List.mem_map.mpr ⟨kv, hkv, rfl⟩)
      rw [alookup_append_none dct [(pk, pv)] kv.1
        (hfr kv (List.mem_cons_of_mem _ hkv))]
      simp [alookup, if_neg hne]
    have : updateAll dct ((pk, pv) :: rest) = updateAll (dct ++ [(pk, pv)]) rest := by
      simp [updateAll, hstep]
    rw [this, ih (dct ++ [(pk, pv)]) hnd'.2 hfr2]
    simp

/-- The duplicate-variable error message raised by `Solver._fetch_vars`. -/
def dupMsg (k : String) : String :=
  "Variable \"" ++ k ++ "\" is defined by more than one Partial class."

/-- The duplicate-name scan `for key in d.keys(): if key in dct: raise`:
first key of `d` already present in `dct`, if any. -/
def firstDup {α : Type} (dct d : List (String × α)) : Option String :=
  (d.find? (fun kv => (alookup dct kv.1).isSome)).map (fun kv => kv.1)

/-- The merge loop of `Solver._fetch_vars` with accumulator exposed. -/
def fetchGo {α : Type} (dicts : List (List (String × α)))
    (dct : List (String × α)) : Except String (List (String × α)) :=
  dicts.foldl
    (fun acc d => do
      let m ← acc
      match firstDup m d with
      | some k => Except.error (dupMsg k)
      | none => Except.ok (updateAll m d))
    (Except.ok dct)

/-- `Solver._fetch_vars`: merge the per-component variable declarations,
raising `KeyError` naming the first variable declared twice. -/
def fetch_vars {α : Type} (dicts : List (List (String × α))) :
    Except String (List (String × α)) :=
  fetchGo dicts []

/-- All declared names in component order. -/
def allKeys {α : Type} (dicts : List (List (String × α))) : List String :=
  (dicts.map keys).flatten

theorem allKeys_cons {α : Type} (d : List (String × α))
    (rest : List (List (String × α))) :
    allKeys (d :: rest) = keys d ++ allKeys rest := by
  simp [allKeys]

theorem keys_flatten {α : Type} (dicts : List (List (String × α))) :
    keys dicts.flatten = allKeys dicts := by
  simp only [keys, allKeys, List.map_flatten]
  rfl

theorem firstDup_eq_none_iff {α : Type} (dct d : List (String × α)) :
    firstDup dct d = none ↔ ∀ kv ∈ d, alookup dct kv.1 = none := by
  rw [firstDup, Option.map_eq_none', List.find?_eq_none]
  constructor
  · intro h kv hkv
    have := h kv hkv
    cases hx : alookup dct kv.1 with
    | none => rfl
    | some v => exact absurd (by simp [hx]) this
  · intro h kv hkv
    simp [h kv hkv]

theorem firstDup_some_mem {α : Type} (dct d : List (String × α)) (k : String)
    (h : firstDup dct d = some k) : k ∈ keys d ∧ k ∈ keys dct := by
  rw [firstDup] at h
  obtain ⟨kv, hf, hk⟩ := Option.map_eq_some'.mp h
  have hmem : kv ∈ d := List.mem_of_find?_eq_some hf
  have hp := List.find?_some hf
  simp only [] at hp
  obtain ⟨v, hv⟩ := Option.isSome_iff_exists.mp hp
  subst hk
  exact ⟨List.mem_map.mpr ⟨kv, hmem, rfl⟩, mem_keys_of_alookup_some dct kv.1 v hv⟩

theorem fetchGo_error {α : Type} (dicts : List (List (String × α)))
    (e : String) :
    dicts.foldl
      (fun acc d => do
        let m ← acc
        match firstDup m d with
        | some k => Except.error (dupMsg k)
        | none => Except.ok (updateAll m d))
      (Except.error e) = Except.error e := by
  induction dicts with
  | nil => rfl
  | cons d rest ih => simpa [Except.bind] using ih

theorem fetchGo_cons_none {α : Type} (d : List (String × α))
    (rest : List (List (String × α))) (dct : List (String × α))
    (h : firstDup dct d = none) :
    fetchGo (d :: rest) dct = fetchGo rest (updateAll dct d) := by
  simp only [fetchGo, List.foldl_cons]
  have hb : (do
      let m ← Except.ok dct
      match firstDup m d with
      | some k => Except.error (dupMsg k)
      | none => (Except.ok (updateAll m d) : Except String (List (String × α)))) =
      (match firstDup dct d with
      | some k => Except.error (dupMsg k)
      | none => Except.ok (updateAll dct d)) := rfl
  rw [hb, h]

theorem fetchGo_cons_some {α : Type} (d : List (String × α))
    (rest : List (List (String × α))) (dct : List (String × α)) (k : String)
    (h : firstDup dct d = some k) :
    fetchGo (d :: rest) dct = Except.error (dupMsg k) := by
  simp only [fetchGo, List.foldl_cons]
  have hb : (do
      let m ← Except.ok dct
      match firstDup m d with
      | some k => Except.error (dupMsg k)
      | none => (Except.ok (updateAll m d) : Except String (List (String × α)))) =
      (match firstDup dct d with
      | some k => Except.error (dupMsg k)
      | none => Except.ok (updateAll dct d)) := rfl
  rw [hb, h]
  exact fetchGo_error rest (dupMsg k)

theorem fetchGo_spec {α : Type} :
    ∀ (dicts : List (List (String × α))) (dct₀ : List (String × α)),
      (keys dct₀).Nodup → (∀ d ∈ dicts, (keys d).Nodup) →
      ((keys dct₀ ++ allKeys dicts).Nodup →
        fetchGo dicts dct₀ = Except.ok (dct₀ ++ dicts.flatten)) ∧
      (¬ (keys dct₀ ++ allKeys dicts).Nodup →
        ∃ k, fetchGo dicts dct₀ = Except.error (dupMsg k) ∧
          2 ≤ (keys dct₀ ++ allKeys dicts).count k) := by
  intro dicts
  induction dicts with
  | nil =>
    intro dct₀ hnd₀ _
    constructor
    · intro _; simp [fetchGo]
    · intro h
      exact absurd (by simpa [allKeys] using hnd₀) h
  | cons d rest ih =>
    intro dct₀ hnd₀ hd
    have hdnd : (keys d).Nodup := hd d (List.mem_cons_self _ _)
    have hd' : ∀ x ∈ rest, (keys x).Nodup :=
      fun x hx => hd x (List.mem_cons_of_mem _ hx)
    have hkeys_eq : keys dct₀ ++ allKeys (d :: rest) =
        (keys dct₀ ++ keys d) ++ allKeys rest := by
      rw [allKeys_cons, List.append_assoc]
    cases hfd : firstDup dct₀ d with
    | none =>
      have hfr : ∀ kv ∈ d, alookup dct₀ kv.1 = none :=
        (firstDup_eq_none_iff dct₀ d).mp hfd
      have hupd : updateAll dct₀ d = dct₀ ++ d := updateAll_append d dct₀ hdnd hfr
      have hdisj : (keys dct₀).Disjoint (keys d) := by
        rw [List.disjoint_left]
        intro k hk₀ hkd
        obtain ⟨kv, hkv, hkv1⟩ := List.mem_map.mp hkd
        have := hfr kv hkv
        rw [hkv1] at this
        exact not_mem_keys_of_alookup_none dct₀ k this hk₀
      have hnd₁ : (keys (dct₀ ++ d)).Nodup := by
        rw [keys_append, List.nodup_append]
        exact ⟨hnd₀, hdnd, hdisj⟩
      have hrec := ih (dct₀ ++ d) hnd₁ hd'
      have hkeys₁ : keys (dct₀ ++ d) ++ allKeys rest =
          keys dct₀ ++ allKeys (d :: rest) := by
        rw [keys_append, hkeys_eq]
      rw [fetchGo_cons_none d rest dct₀ hfd, hupd]
      constructor
      · intro hnod
        rw [(hrec.1 (by rw [hkeys₁]; exact hnod))]
        simp [List.flatten_cons]
      · intro hnod
        obtain ⟨k, he, hc⟩ := hrec.2 (by rw [hkeys₁]; exact hnod)
        exact ⟨k, he, by rw [← hkeys₁]; exact hc⟩
    | some k =>
      obtain ⟨hkd, hk₀⟩ := firstDup_some_mem dct₀ d k hfd
      rw [fetchGo_cons_some d rest dct₀ k hfd]
      constructor
      · intro hnod
        exfalso
        rw [List.nodup_append] at hnod
        exact (List.disjoint_left.mp hnod.2.2) hk₀
          (by rw [allKeys_cons]; exact List.mem_append_left _ hkd)
      · intro _
        refine ⟨k, rfl, ?_⟩
        rw [List.count_append, allKeys_cons, List.count_append]
        have h1 : 0 < (keys dct₀).count k := List.count_pos_iff.mpr hk₀
        have h2 : 0 < (keys d).count k := List.count_pos_iff.mpr hkd
        omega

/-- The behaviour C5 asserts of variable collection: on any duplicate
declaration across components the merge raises an error naming a variable
declared at least twice; with all names distinct, the merge succeeds and
contains every declaration of every component. -/
def fetchVarsSpec (dicts : List (List (String × List Int))) : Prop :=
  (¬ (allKeys dicts).Nodup →
    ∃ k, fetch_vars dicts = Except.error (dupMsg k) ∧
      2 ≤ (allKeys dicts).count k) ∧
  ((allKeys dicts).Nodup →
    ∃ merged, fetch_vars dicts = Except.ok merged ∧
      ∀ d ∈ dicts, ∀ kv ∈ d, alookup merged kv.1 = some kv.2)

/-- C5: if two connected components declare the same variable name, variable
collection (`Solver._fetch_vars`) raises a duplicate-variable error that
identifies the offending name at merge time; if all declared names are
distinct, collection succeeds and the merged mapping contains every
component's declarations. -/
theorem claim_C5_duplicate_collection (dicts : List (List (String × List Int)))
    (hd : ∀ d ∈ dicts, (keys d).Nodup) : fetchVarsSpec dicts := by
  have h := fetchGo_spec dicts [] (by simp [keys]) hd
  have hnil : keys ([] : List (String × List Int)) ++ allKeys dicts =
      allKeys dicts := by simp [keys]
  constructor
  · intro hdup
    obtain ⟨k, he, hc⟩ := h.2 (by rw [hnil]; exact hdup)
    exact ⟨k, he, by rw [← hnil]; exact hc⟩
  · intro hnod
    have hok := h.1 (by rw [hnil]; exact hnod)
    refine ⟨dicts.flatten, by simpa [fetch_vars] using hok, ?_⟩
    intro d hdm kv hkv
    have hmem : kv ∈ dicts.flatten := List.mem_flatten.mpr ⟨d, hdm, hkv⟩
    have hfnd : (keys dicts.flatten).Nodup := by
      rw [keys_flatten]; exact hnod
    exact alookup_of_mem_nodup dicts.flatten kv hfnd hmem

/-- Witness for C5: two components both declaring `x`, plus a distinct-name
instance exercised through the same theorem. -/
theorem claim_C5_duplicate_collection_witness :
    (∀ d ∈ [[("x", [(1 : Int)])], [("x", [2])]], (keys d).Nodup) ∧
      fetchVarsSpec [[("x", [(1 : Int)])], [("x", [2])]] :=
  ⟨by decide, claim_C5_duplicate_collection _ (by decide)⟩

/-- `core.Package`.  Components are opaque user objects; their private
fields are modelled as a `List Int` per component name.  A bound stage-call
method receives its component's current private fields, the read-only state
view mapping, and the time, and returns the component's updated private
fields (stage calls mutate only their own component).  A bound derivative
method receives the same and returns its name-to-values mapping.  The
opaque `log` side-channel threaded through the calls carries no data the
stepping algorithm reads, and is omitted here (the `Integrator` model below
models the stop flag it carries). -/
structure Package where
  components : List (String × List Int)
  stage_calls : List (String × (List Int → List (String × List Int) → Rat → List Int))
  deriv_methods :
    List (String × (List Int → List (String × List Int) → Rat → List (String × List Int)))
  slicer : Slicer
  state_vec : List Int
  ret_vec : List Int

/-- The read-only per-variable views of a buffer, as the dict of numpy
views built by `Slicer.get_state` presents them after the buffer has been
overwritten: one entry per registered name, each the contents of its
assigned range. -/
def viewsOf (slices : List (String × Slc)) (buf : List Int) :
    List (String × List Int) :=
  slices.map (fun kv => (kv.1, readRange buf kv.2.start kv.2.stop))

/-- The stage-call loop: each registered stage call runs in registration
order, reading the shared state views and updating its own component's
private fields. -/
def runStages
    (stage_calls : List (String × (List Int → List (String × List Int) → Rat → List Int)))
    (comps : List (String × List Int)) (state : List (String × List Int))
    (t : Rat) : List (String × List Int) :=
  stage_calls.foldl
    (fun cs nm => setVal cs nm.1 (nm.2 ((alookup cs nm.1).getD []) state t)) comps

/-- The outputs of every derivative method, each invoked in registration
order on the same state views and on the component states left by the
stage pass. -/
def derivOuts
    (deriv_methods :
      List (String × (List Int → List (String × List Int) → Rat → List (String × List Int))))
    (comps : List (String × List Int)) (state : List (String × List Int))
    (t : Rat) : List (List (String × List Int)) :=
  deriv_methods.map (fun nm => nm.2 ((alookup comps nm.1).getD []) state t)

/-- Scatter every returned mapping, in order, into the return buffer. -/
def scatterAll (slices : List (String × Slc)) (ret : List Int)
    (outs : List (List (String × List Int))) : Except String (List Int) :=
  outs.foldl
    (fun acc d => do
      let r ← acc
      foldWrite slices r d)
    (Except.ok ret)

/-- `Package.step`, translated statement by statement:
`self._state_vec[:] = vec` (length-checked numpy copy), the stage-call loop,
then the derivative loop writing each `ret[name][:] = val` as it goes, and
finally `return self._ret_vec`. -/
def Package.step (pkg : Package) (vec : List Int) (t : Rat) :
    Except String (Package × List Int) :=
  if vec.length = pkg.state_vec.length then
    let state := viewsOf pkg.slicer.slices vec
    let comps := runStages pkg.stage_calls pkg.components state t
    match pkg.deriv_methods.foldl
        (fun acc nm => do
          let r ← acc
          foldWrite pkg.slicer.slices r (nm.2 ((alookup comps nm.1).getD []) state t))
        (Except.ok pkg.ret_vec) with
    | Except.ok r =>
      Except.ok ({ pkg with state_vec := vec, components := comps, ret_vec := r }, r)
    | Except.error e => Except.error e
  else Except.error "ValueError: could not broadcast input array"

/-- The step sequence exactly as claim C1 words it: copy the incoming
vector into the live state buffer, run every stage call in registration
order, compute every derivative method's output in registration order with
all of them observing the views of the copied-in vector and the post-stage
component states, scatter the outputs into the return-buffer ranges of
their keys, and return the flat return buffer. -/
def Package.stepSpec (pkg : Package) (vec : List Int) (t : Rat) :
    Except String (Package × List Int) :=
  if vec.length = pkg.state_vec.length then
    let state := viewsOf pkg.slicer.slices vec
    let comps := runStages pkg.stage_calls pkg.components state t
    match scatterAll pkg.slicer.slices pkg.ret_vec
        (derivOuts pkg.deriv_methods comps state t) with
    | Except.ok r =>
      Except.ok ({ pkg with state_vec := vec, components := comps, ret_vec := r }, r)
    | Except.error e => Except.error e
  else Except.error "ValueError: could not broadcast input array"

theorem step_eq_stepSpec (pkg : Package) (vec : List Int) (t : Rat) :
    pkg.step vec t = pkg.stepSpec vec t := by
  simp only [Package.step, Package.stepSpec, scatterAll, derivOuts,
    List.foldl_map]

/-- C1: for every configured Package, each call to `step(vec, t, log)`
performs exactly the claimed sequence (equality of `step` with the
spec-worded `stepSpec` on all inputs), and on every successful step the
live state buffer holds the copied-in `vec`, the component states are those
left by running every stage call in registration order against the views of
`vec` (so every stage call completes before any derivative method runs),
the return buffer is the scatter of the derivative outputs — all computed
from those same views of `vec` and the post-stage component states — and
the returned vector is the flat return buffer. -/
theorem claim_C1_step_sequence (pkg : Package) (vec : List Int) (t : Rat) :
    pkg.step vec t = pkg.stepSpec vec t ∧
    ∀ pkg2 out, pkg.step vec t = Except.ok (pkg2, out) →
      pkg2.state_vec = vec ∧
      pkg2.components =
        runStages pkg.stage_calls pkg.components
          (viewsOf pkg.slicer.slices vec) t ∧
      scatterAll pkg.slicer.slices pkg.ret_vec
        (derivOuts pkg.deriv_methods pkg2.components
          (viewsOf pkg.slicer.slices vec) t) = Except.ok pkg2.ret_vec ∧
      out = pkg2.ret_vec := by
  refine ⟨step_eq_stepSpec pkg vec t, ?_⟩
  intro pkg2 out h
  rw [step_eq_stepSpec] at h
  simp only [Package.stepSpec] at h
  by_cases hl : vec.length = pkg.state_vec.length
  · rw [if_pos hl] at h
    cases hs : scatterAll pkg.slicer.slices pkg.ret_vec
        (derivOuts pkg.deriv_methods
          (runStages pkg.stage_calls pkg.components
            (viewsOf pkg.slicer.slices vec) t)
          (viewsOf pkg.slicer.slices vec) t) with
    | ok r =>
      rw [hs] at h
      have hpair := Except.ok.inj h
      have h1 := congrArg Prod.fst hpair
      have h2 := congrArg Prod.snd hpair
      simp only [] at h1 h2
      rw [← h1, ← h2]
      exact ⟨rfl, rfl, hs, rfl⟩
    | error e => rw [hs] at h; cases h
  · rw [if_neg hl] at h; cases h

/-- Concrete package for the C1 witness: two variables `x`, `y`, a stage
call that stores `5` in component `A`, a derivative method on `A` returning
its private field for `x`, and one on `B` returning `7` for `y`. -/
def c1pkg : Package :=
  { components := [("A", [0]), ("B", [])],
    stage_calls := [("A", fun _ _ _ => [5])],
    deriv_methods :=
      [("A", fun priv _ _ => [("x", priv)]),
       ("B", fun _ _ _ => [("y", [7])])],
    slicer := Slicer.ofDict [("x", [0]), ("y", [0])],
    state_vec := [0, 0],
    ret_vec := [0, 0] }

/-- `c1pkg` after one step with `vec = [1, 2]`. -/
def c1pkgStepped : Package :=
  { c1pkg with state_vec := [1, 2],
               components := [("A", [5]), ("B", [])],
               ret_vec := [5, 7] }

/-- Witness for C1 at a concrete configured package. -/
theorem claim_C1_step_sequence_witness :
    c1pkg.step [1, 2] 0 = c1pkg.stepSpec [1, 2] 0 ∧
    (c1pkgStepped.state_vec = [1, 2] ∧
      c1pkgStepped.components =
        runStages c1pkg.stage_calls c1pkg.components
          (viewsOf c1pkg.slicer.slices [1, 2]) 0 ∧
      scatterAll c1pkg.slicer.slices c1pkg.ret_vec
        (derivOuts c1pkg.deriv_methods c1pkgStepped.components
          (viewsOf c1pkg.slicer.slices [1, 2]) 0) =
        Except.ok c1pkgStepped.ret_vec ∧
      ([5, 7] : List Int) = c1pkgStepped.ret_vec) :=
  ⟨(claim_C1_step_sequence c1pkg [1, 2] 0).1,
    (claim_C1_step_sequence c1pkg [1, 2] 0).2 c1pkgStepped [5, 7] rfl⟩

/-- `Package.setup`: build the `Slicer` from the initial values, build the
state vector from them, and allocate the return buffer as
`np.zeros_like(state_vec)`.  The view dictionaries built here are modelled
implicitly: `step` reads views of the current buffers. -/
def Package.setup (pkg : Package) (inits : List (String × List Int)) :
    Except String Package :=
  match (Slicer.ofDict inits).get_state_vec inits with
  | Except.error e => Except.error e
  | Except.ok state_vec =>
    Except.ok { pkg with slicer := Slicer.ofDict inits,
                         state_vec := state_vec,
                         ret_vec := List.replicate state_vec.length 0 }

theorem writeRange_nil (buf : List Int) (start : Nat) :
    writeRange buf start [] = buf := by
  simp [writeRange]

theorem scatterWrite_ok_alookup (slices : List (String × Slc)) (buf : List Int)
    (kv : String × List Int) (b : List Int)
    (h : scatterWrite slices buf kv = Except.ok b) :
    ∃ slc, alookup slices kv.1 = some slc := by
  cases ha : alookup slices kv.1 with
  | none => simp [scatterWrite, ha] at h
  | some slc => exact ⟨slc, rfl⟩

theorem scatterWrite_frame (slices : List (String × Slc)) (buf : List Int)
    (kv : String × List Int) (b : List Int) (slc : Slc) (j : Nat)
    (h : scatterWrite slices buf kv = Except.ok b)
    (hslc : alookup slices kv.1 = some slc)
    (hj : j < slc.start ∨ slc.stop ≤ j) : b[j]? = buf[j]? := by
  simp only [scatterWrite, hslc] at h
  by_cases hlen : kv.2.length = sliceLen slc buf.length
  · rw [if_pos hlen] at h
    have hb := Except.ok.inj h
    rw [← hb]
    have hins : min slc.start buf.length + kv.2.length ≤ buf.length := by
      rw [hlen, sliceLen]; omega
    by_cases hjn : j < buf.length
    · rcases hj with hj | hj
      · exact getElem?_writeRange_lt buf _ kv.2 j (by omega) (by omega)
      · by_cases hss : min slc.start buf.length ≤ min slc.stop buf.length
        · refine getElem?_writeRange_ge buf _ kv.2 j ?_ (by omega)
          rw [hlen, sliceLen]
          omega
        · have h0 : kv.2.length = 0 := by rw [hlen, sliceLen]; omega
          rw [List.length_eq_zero.mp h0, writeRange_nil]
    · push_neg at hjn
      have hlen2 : (writeRange buf (min slc.start buf.length) kv.2).length =
          buf.length := length_writeRange buf _ kv.2 hins
      rw [List.getElem?_eq_none (le_trans (le_of_eq hlen2) hjn),
        List.getElem?_eq_none hjn]
  · rw [if_neg hlen] at h
    cases h

theorem foldWrite_frame (slices : List (String × Slc)) :
    ∀ (dct : List (String × List Int)) (buf buf2 : List Int) (j : Nat),
      foldWrite slices buf dct = Except.ok buf2 →
      (∀ kv ∈ dct, ∀ slc, alookup slices kv.1 = some slc →
        j < slc.start ∨ slc.stop ≤ j) →
      buf2[j]? = buf[j]? := by
  intro dct
  induction dct with
  | nil =>
    intro buf buf2 j h _
    simp only [foldWrite, List.foldl_nil] at h
    rw [Except.ok.inj h]
  | cons kv rest ih =>
    intro buf buf2 j h hcond
    cases hsw : scatterWrite slices buf kv with
    | error e => rw [foldWrite_cons_error slices buf kv rest e hsw] at h; cases h
    | ok b =>
      rw [foldWrite_cons_ok slices buf b kv rest hsw] at h
      obtain ⟨slc, hslc⟩ := scatterWrite_ok_alookup slices buf kv b hsw
      rw [ih b buf2 j h (fun kv2 hm => hcond kv2 (List.mem_cons_of_mem _ hm))]
      exact scatterWrite_frame slices buf kv b slc j hsw hslc
        (hcond kv (List.mem_cons_self _ _) slc hslc)

theorem scatterAll_error (slices : List (String × Slc))
    (outs : List (List (String × List Int))) (e : String) :
    outs.foldl
      (fun acc d => do
        let r ← acc
        foldWrite slices r d)
      (Except.error e) = Except.error e := by
  induction outs with
  | nil => rfl
  | cons d rest ih => simpa [Except.bind] using ih

theorem scatterAll_cons_ok (slices : List (String × Slc)) (ret b : List Int)
    (d : List (String × List Int)) (outs : List (List (String × List Int)))
    (h : foldWrite slices ret d = Except.ok b) :
    scatterAll slices ret (d :: outs) = scatterAll slices b outs := by
  simp only [scatterAll, List.foldl_cons]
  have hb : (do
      let r ← Except.ok ret
      foldWrite slices r d) = foldWrite slices ret d := rfl
  rw [hb, h]

theorem scatterAll_cons_error (slices : List (String × Slc)) (ret : List Int)
    (d : List (String × List Int)) (outs : List (List (String × List Int)))
    (e : String) (h : foldWrite slices ret d = Except.error e) :
    scatterAll slices ret (d :: outs) = Except.error e := by
  simp only [scatterAll, List.foldl_cons]
  have hb : (do
      let r ← Except.ok ret
      foldWrite slices r d) = foldWrite slices ret d := rfl
  rw [hb, h]
  exact scatterAll_error slices outs e

theorem scatterAll_frame (slices : List (String × Slc)) :
    ∀ (outs : List (List (String × List Int))) (ret ret2 : List Int) (j : Nat),
      scatterAll slices ret outs = Except.ok ret2 →
      (∀ d ∈ outs, ∀ kv ∈ d, ∀ slc, alookup slices kv.1 = some slc →
        j < slc.start ∨ slc.stop ≤ j) →
      ret2[j]? = ret[j]? := by
  intro outs
  induction outs with
  | nil =>
    intro ret ret2 j h _
    simp only [scatterAll, List.foldl_nil] at h
    rw [Except.ok.inj h]
  | cons d rest ih =>
    intro ret ret2 j h hcond
    cases hfw : foldWrite slices ret d with
    | error e => rw [scatterAll_cons_error slices ret d rest e hfw] at h; cases h
    | ok b =>
      rw [scatterAll_cons_ok slices ret b d rest hfw] at h
      rw [ih b ret2 j h (fun d2 hm => hcond d2 (List.mem_cons_of_mem _ hm))]
      exact foldWrite_frame slices d ret b j hfw
        (hcond d (List.mem_cons_self _ _))

/-- Whether any range written by the given derivative outputs covers index
`j`. -/
def writesTouch (slices : List (String × Slc))
    (outs : List (List (String × List Int))) (j : Nat) : Bool :=
  outs.any (fun d => d.any (fun kv =>
    match alookup slices kv.1 with
    | some slc => decide (slc.start ≤ j ∧ j < slc.stop)
    | none => false))

theorem writesTouch_false (slices : List (String × Slc))
    (outs : List (List (String × List Int))) (j : Nat)
    (h : writesTouch slices outs j = false) :
    ∀ d ∈ outs, ∀ kv ∈ d, ∀ slc, alookup slices kv.1 = some slc →
      j < slc.start ∨ slc.stop ≤ j := by
  intro d hd kv hkv slc hslc
  rw [writesTouch, List.any_eq_false] at h
  have h2 := h d hd
  rw [Bool.not_eq_true, List.any_eq_false] at h2
  have h3 := h2 kv hkv
  rw [hslc] at h3
  simp only [decide_eq_true_eq] at h3
  omega

/-- C10: the return buffer is zero-initialized once at setup, and a step
writes only the index ranges named as keys in the mappings returned by
derivative methods during that call: every index outside all of those
ranges retains in the returned output vector the value it had in the
return buffer before the call (hence, across steps, the value written by
the most recent earlier step, or zero if never written). -/
theorem claim_C10_ret_buffer_retention :
    (∀ (pkg : Package) (inits : List (String × List Int)) (pkg2 : Package),
      pkg.setup inits = Except.ok pkg2 →
      pkg2.ret_vec = List.replicate pkg2.state_vec.length 0) ∧
    (∀ (pkg : Package) (vec : List Int) (t : Rat) (pkg2 : Package)
      (out : List Int),
      pkg.step vec t = Except.ok (pkg2, out) →
      out = pkg2.ret_vec ∧
      ∀ j : Nat,
        writesTouch pkg.slicer.slices
          (derivOuts pkg.deriv_methods
            (runStages pkg.stage_calls pkg.components
              (viewsOf pkg.slicer.slices vec) t)
            (viewsOf pkg.slicer.slices vec) t) j = false →
        out[j]? = pkg.ret_vec[j]?) := by
  constructor
  · intro pkg inits pkg2 h
    rw [Package.setup] at h
    cases hs : (Slicer.ofDict inits).get_state_vec inits with
    | error e => rw [hs] at h; cases h
    | ok sv =>
      rw [hs] at h
      rw [← Except.ok.inj h]
  · intro pkg vec t pkg2 out h
    rw [step_eq_stepSpec] at h
    simp only [Package.stepSpec] at h
    by_cases hl : vec.length = pkg.state_vec.length
    · rw [if_pos hl] at h
      cases hs : scatterAll pkg.slicer.slices pkg.ret_vec
          (derivOuts pkg.deriv_methods
            (runStages pkg.stage_calls pkg.components
              (viewsOf pkg.slicer.slices vec) t)
            (viewsOf pkg.slicer.slices vec) t) with
      | ok r =>
        rw [hs] at h
        have hpair := Except.ok.inj h
        have h1 := congrArg Prod.fst hpair
        have h2 := congrArg Prod.snd hpair
        simp only [] at h1 h2
        constructor
        · rw [← h1, ← h2]
        · intro j htouch
          rw [← h2]
          exact scatterAll_frame pkg.slicer.slices _ pkg.ret_vec r j hs
            (writesTouch_false _ _ j htouch)
      | error e => rw [hs] at h; cases h
    · rw [if_neg hl] at h; cases h

/-- Empty package used by the C10 witness before setup. -/
def c10pkg0 : Package :=
  { components := [], stage_calls := [], deriv_methods := [],
    slicer := Slicer.empty, state_vec := [], ret_vec := [] }

/-- `c10pkg0` after `setup({x: [3], y: [4]})`. -/
def c10setupPkg : Package :=
  { c10pkg0 with slicer := Slicer.ofDict [("x", [3]), ("y", [4])],
                 state_vec := [3, 4],
                 ret_vec := [0, 0] }

/-- Package for the C10 frame witness: its single derivative method writes
only `x`, while the return buffer still holds `[9, 9]` from an earlier
step. -/
def c10pkg : Package :=
  { components := [("A", [])], stage_calls := [],
    deriv_methods := [("A", fun _ _ _ => [("x", [5])])],
    slicer := Slicer.ofDict [("x", [0]), ("y", [0])],
    state_vec := [0, 0],
    ret_vec := [9, 9] }

/-- `c10pkg` after one step with `vec = [1, 2]`: `y`'s cell keeps `9`. -/
def c10pkgStepped : Package :=
  { c10pkg with state_vec := [1, 2],
                components := [("A", [])],
                ret_vec := [5, 9] }

/-- Witness for C10: zero-initialized return buffer at setup, and index 1
(variable `y`, absent from the returned mapping) retaining its previous
value `9` through a step. -/
theorem claim_C10_ret_buffer_retention_witness :
    (c10setupPkg.ret_vec = List.replicate c10setupPkg.state_vec.length 0) ∧
    (([5, 9] : List Int) = c10pkgStepped.ret_vec ∧
      ([5, 9] : List Int)[1]? = c10pkg.ret_vec[1]?) :=
  ⟨claim_C10_ret_buffer_retention.1 c10pkg0 [("x", [3]), ("y", [4])]
      c10setupPkg rfl,
    (claim_C10_ret_buffer_retention.2 c10pkg [1, 2] 0 c10pkgStepped
      [5, 9] rfl).1,
    (claim_C10_ret_buffer_retention.2 c10pkg [1, 2] 0 c10pkgStepped
      [5, 9] rfl).2 1 rfl⟩

/-- Entry of `basic.V_Set._dct`: a single index for size-1 names, a slice
otherwise. -/
inductive VInd where
  | idx (i : Nat)
  | slc (s : Slc)
deriving DecidableEq

/-- `basic.V_Set`: `_dct` maps names to indices or slices, `_n` is the
running total, `_locked` freezes the set. -/
structure V_Set where
  dct : List (String × VInd)
  n : Nat
  locked : Bool
deriving DecidableEq

/-- `V_Set.add`, translated line by line.  The caller has already split a
space-separated name string into a list and defaulted `sizes` to ones; the
`zip` matches Python's truncating `zip`.  In the source the duplicate-name
branch evaluates `ValueError(name, 'already exists in the set.')` but never
raises it, so a duplicate name silently changes nothing. -/
def V_Set.add (vs : V_Set) (names : List String) (sizes : List Nat) :
    Except String V_Set :=
  if vs.locked then
    Except.error "RuntimeError: Set is locked and cannot be added to."
  else
    Except.ok ((names.zip sizes).foldl
      (fun v ns =>
        if (alookup v.dct ns.1).isNone then
          { dct := v.dct ++
              [(ns.1, if ns.2 = 1 then VInd.idx v.n
                else VInd.slc ⟨v.n, v.n + ns.2⟩)],
            n := v.n + ns.2,
            locked := v.locked }
        else v)
      vs)

/-- `V_Set` already holding `x` at index 0. -/
def c6vset : V_Set := ⟨[("x", VInd.idx 0)], 1, false⟩

/-- C6 (code evaluated at the failing input): re-adding `x` to a `V_Set`
returns successfully with the set unchanged — no duplicate-variable error is
raised, because the source builds the `ValueError` without raising it — and
re-adding `x` to a `Slicer` raises nothing either: it silently reassigns
`x` to the next range and grows the total length to 2. -/
theorem claim_C6_duplicate_add_eval :
    c6vset.add ["x"] [1] = Except.ok c6vset ∧
    ((Slicer.empty.add "x" [0]).add "x" [0]).slices = [("x", ⟨1, 2⟩)] ∧
    ((Slicer.empty.add "x" [0]).add "x" [0]).i = 2 := by
  exact ⟨rfl, by decide, by decide⟩

/-- Return value of a connected component's step method as `Solver.step` /
`Solver.tstep` see it: either a name-keyed mapping of values, or any
non-mapping object. -/
inductive StepRet where
  | dict (d : List (String × List Int))
  | nondict

/-- `core.Solver` reduced to the state its steppers read: the slice table
and buffers built by `npsolve_init`, and the collected step methods.  Each
step method receives the read-only state view dictionary and the time.
Cache clearing is a no-op here (methods are pure functions). -/
structure Solver where
  slices : List (String × Slc)
  npsolve_state : List Int
  npsolve_ret : List Int
  step_methods : List (List (String × List Int) → Rat → StepRet)

/-- `Solver.step(vec, t)`: copy `vec` into the state buffer, call each step
method on the state views, and iterate `.items()` of each result into the
return views.  A non-mapping result hits the low-level failure of calling
`.items()` on it (`AttributeError`). -/
def Solver.step (s : Solver) (vec : List Int) (t : Rat) :
    Except String (Solver × List Int) :=
  if vec.length = s.npsolve_state.length then
    match s.step_methods.foldl
        (fun acc m => do
          let r ← acc
          match m (viewsOf s.slices vec) t with
          | StepRet.dict d => foldWrite s.slices r d
          | StepRet.nondict =>
            Except.error "AttributeError: object has no attribute items")
        (Except.ok s.npsolve_ret) with
    | Except.ok r =>
      Except.ok ({ s with npsolve_state := vec, npsolve_ret := r }, r)
    | Except.error e => Except.error e
  else Except.error "ValueError: could not broadcast input array"

/-- `Solver.tstep(t, vec)`: same copy, same calls in the same order, but the
result of each step method is checked with `isinstance(ret, dict)` and a
non-mapping raises the descriptive
`ValueError("... did not return a dictionary of derivatives.")` instead of
the low-level `AttributeError` that `step` hits. -/
def Solver.tstep (s : Solver) (t : Rat) (vec : List Int) :
    Except String (Solver × List Int) :=
  if vec.length = s.npsolve_state.length then
    match s.step_methods.foldl
        (fun acc m => do
          let r ← acc
          match m (viewsOf s.slices vec) t with
          | StepRet.dict d => foldWrite s.slices r d
          | StepRet.nondict =>
            Except.error
              "ValueError: did not return a dictionary of derivatives.")
        (Except.ok s.npsolve_ret) with
    | Except.ok r =>
      Except.ok ({ s with npsolve_state := vec, npsolve_ret := r }, r)
    | Except.error e => Except.error e
  else Except.error "ValueError: could not broadcast input array"

/-- A solver whose single step method returns a non-mapping. -/
def c7bad : Solver :=
  { slices := [("x", ⟨0, 1⟩)], npsolve_state := [0], npsolve_ret := [0],
    step_methods := [fun _ _ => StepRet.nondict] }

/-- Counterexample to C7 as stated: when a component's step method returns
a non-mapping, `step` and `tstep` raise different errors, so the two are
not behaviorally identical in their error behavior. -/
theorem claim_C7_counterexample :
    Solver.step c7bad [5] 0 =
      Except.error "AttributeError: object has no attribute items" ∧
    Solver.tstep c7bad 0 [5] =
      Except.error "ValueError: did not return a dictionary of derivatives." ∧
    Solver.step c7bad [5] 0 ≠ Solver.tstep c7bad 0 [5] := by
  refine ⟨rfl, rfl, ?_⟩
  intro h
  rw [show Solver.step c7bad [5] 0 =
      Except.error "AttributeError: object has no attribute items" from rfl,
    show Solver.tstep c7bad 0 [5] =
      Except.error "ValueError: did not return a dictionary of derivatives."
      from rfl] at h
  injection h with h2
  exact absurd h2 (by decide)

/-- C7 (amended): whenever every step method returns a name-keyed mapping,
`tstep(t, vec)` is behaviorally identical to `step(vec, t)`: the same
returned output vector, the same buffer mutations, and the same error
behavior; when a method returns a non-mapping both raise, but `step` raises
a low-level `AttributeError` while `tstep` raises a descriptive
`ValueError`, so the error behavior differs there. -/
theorem claim_C7_tstep_equiv (s : Solver) (vec : List Int) (t : Rat)
    (h : ∀ m ∈ s.step_methods, ∀ st u, ∃ d, m st u = StepRet.dict d) :
    s.tstep t vec = s.step vec t := by
  rw [Solver.step, Solver.tstep]
  by_cases hl : vec.length = s.npsolve_state.length
  · rw [if_pos hl, if_pos hl]
    have heq : s.step_methods.foldl
        (fun acc m => do
          let r ← acc
          match m (viewsOf s.slices vec) t with
          | StepRet.dict d => foldWrite s.slices r d
          | StepRet.nondict =>
            Except.error
              "ValueError: did not return a dictionary of derivatives.")
        (Except.ok s.npsolve_ret) =
        s.step_methods.foldl
        (fun acc m => do
          let r ← acc
          match m (viewsOf s.slices vec) t with
          | StepRet.dict d => foldWrite s.slices r d
          | StepRet.nondict =>
            Except.error "AttributeError: object has no attribute items")
        (Except.ok s.npsolve_ret) := by
      refine List.foldl_ext _ _ _ ?_
      intro acc m hm
      obtain ⟨d, hd⟩ := h m hm (viewsOf s.slices vec) t
      rw [hd]
    rw [heq]
  · rw [if_neg hl, if_neg hl]

/-- A solver whose single step method returns `{x: [3]}`. -/
def c7good : Solver :=
  { slices := [("x", ⟨0, 1⟩)], npsolve_state := [0], npsolve_ret := [0],
    step_methods := [fun _ _ => StepRet.dict [("x", [3])]] }

/-- Witness for the amended C7 at a concrete solver. -/
theorem claim_C7_tstep_equiv_witness :
    Solver.tstep c7good 0 [5] = Solver.step c7good [5] 0 :=
  claim_C7_tstep_equiv c7good [5] 0 (by
    intro m hm st u
    rw [show c7good.step_methods = [fun _ _ => StepRet.dict [("x", [3])]]
      from rfl] at hm
    rw [List.mem_singleton.mp hm]
    exact ⟨[("x", [3])], rfl⟩)

/-- Python `x % y` for positive `y`, in exact arithmetic. -/
def pymod (x y : Rat) : Rat := x - y * ⌊x / y⌋

/-- Python `int(x)`: truncation toward zero. -/
def pyint (x : Rat) : Int := if 0 ≤ x then ⌊x⌋ else -⌊-x⌋

/-- `np.linspace(a, b, n)`: `n` evenly spaced samples from `a` to `b`
inclusive. -/
def linspace (a b : Rat) (n : Nat) : List Rat :=
  match n with
  | 0 => []
  | 1 => [a]
  | n => (List.range n).map (fun i : Nat => a + (b - a) * (i : Rat) / ((n : Rat) - 1))

/-- `Integrator._make_x_vector(end)`:
`rem = end % (1/framerate); x_end = end - rem;
n = int(x_end * framerate); return np.linspace(0, x_end, n)`. -/
def Integrator.make_x_vector (framerate endv : Rat) : List Rat :=
  let rem := pymod endv (1 / framerate)
  let x_end := endv - rem
  let n := (pyint (x_end * framerate)).toNat
  linspace 0 x_end n

/-- C8 (code evaluated at the failing input): with `end = 1.0` and
`framerate = 3`, `_make_x_vector` (in exact arithmetic) returns
`np.linspace(0, 1, 3) = [0, 1/2, 1]` — three samples spaced `1/2` apart —
not the four samples `[0, 1/3, 2/3, 1]` spaced at `1/framerate` that the
claim and the class docstring (framerate = "number of return values per
unit x") promise: the sample count `int(x_end * framerate)` is one short
of `floor(end*framerate) + 1`. -/
theorem claim_C8_make_x_vector_eval :
    Integrator.make_x_vector 3 1 = [0, 1/2, 1] ∧
    (Integrator.make_x_vector 3 1).length = 3 := by
  have hrem : pymod 1 (1 / (3 : Rat)) = 0 := by
    rw [pymod]
    norm_num
  have hint : (pyint 3).toNat = 3 := by
    rw [pyint]
    norm_num
    decide
  have h : Integrator.make_x_vector 3 1 = linspace 0 1 3 := by
    simp only [Integrator.make_x_vector, hrem]
    norm_num
    rw [hint]
  have hl : linspace 0 1 3 = [0, 1/2, 1] := by
    simp only [linspace, List.range_succ, List.range_zero, List.map_cons,
      List.map_nil, List.nil_append, List.cons_append]
    norm_num
  rw [h, hl]
  exact ⟨rfl, rfl⟩

/-- The while loop of `Integrator.run`, restricted to its solution-frame
bookkeeping.  `integ t` abstracts the external call `i.integrate(t)`
(assumed successful, as `i.successful()` reports).  The status
side-channel is reduced to the stop flag: during the finalized `tstep` for
the frame of index `k` the connected components set `status[STOP]` exactly
when `stopAt k` (the flag is sticky once set, as nothing clears it inside
the loop).  `fuel` bounds the loop; the runs analyzed exit through the
loop condition well before exhausting it. -/
def Integrator.runLoop (integ : Rat → List Int) (stopAt : Nat → Bool)
    (dt endt : Rat) : Nat → Rat → Bool → List (List Int) → List (List Int)
  | 0, _, _, sol => sol
  | fuel + 1, t, stop, sol =>
    if t < endt ∧ stop = false then
      Integrator.runLoop integ stopAt dt endt fuel (t + dt)
        (stop || stopAt sol.length) (sol ++ [integ (t + dt)])
    else sol

/-- `Integrator.run(end)` down to the list of solution frames: make the
output grid, log the initial frame (whose finalized `tstep` may already set
the stop flag, hence `stopAt 0`), then loop.  The trailing
`self.step(solution[-1], x_end)` call and the logger/output assembly do not
change the solution frames and are omitted. -/
def Integrator.run (integ : Rat → List Int) (stopAt : Nat → Bool)
    (framerate endt : Rat) (init_vec : List Int) (fuel : Nat) :
    List (List Int) :=
  let x_vec := Integrator.make_x_vector framerate endt
  let dt := x_vec.getD 1 0 - x_vec.getD 0 0
  Integrator.runLoop integ stopAt dt endt fuel 0 (stopAt 0) [init_vec]

theorem runLoop_stopped (integ : Rat → List Int) (stopAt : Nat → Bool)
    (dt endt : Rat) (fuel : Nat) (t : Rat) (sol : List (List Int)) :
    Integrator.runLoop integ stopAt dt endt fuel t true sol = sol := by
  cases fuel with
  | zero => rfl
  | succ f => simp [Integrator.runLoop]

theorem linspace_getD (a b : Rat) (m i : Nat) (hi : i < m + 2) :
    (linspace a b (m + 2)).getD i 0 = a + (b - a) * i / ((m + 2 : Rat) - 1) := by
  rw [linspace]
  rw [List.getD_eq_getElem?_getD, List.getElem?_map, List.getElem?_range hi]
  simp only [Option.map_some', Option.getD_some]
  push_cast
  ring
  all_goals omega

/-- C9: with `end = 10` and `framerate = 60`, if a component sets the stop
flag during the finalized call at output frame index 5, the run loop
terminates before reaching `end` (the frame count is independent of any
remaining fuel) and the returned trajectory holds exactly 6 complete
logged frames — indices 0 through 5, the stopping frame included — each a
full state row. -/
theorem claim_C9_early_stop (integ : Rat → List Int) (L : Nat)
    (init_vec : List Int) (fuel : Nat) (hfuel : 6 ≤ fuel)
    (hinteg : ∀ u, (integ u).length = L) (hinit : init_vec.length = L) :
    (Integrator.run integ (fun i => i == 5) 60 10 init_vec fuel).length = 6 ∧
    ∀ row ∈ Integrator.run integ (fun i => i == 5) 60 10 init_vec fuel,
      row.length = L := by
  obtain ⟨k, hk⟩ := Nat.exists_eq_add_of_le hfuel
  subst hk
  have hrem : pymod 10 (1 / (60 : Rat)) = 0 := by
    rw [pymod]
    norm_num
  have hint : (pyint 600).toNat = 600 := by
    rw [pyint]
    norm_num
    decide
  have hx : Integrator.make_x_vector 60 10 = linspace 0 10 600 := by
    simp only [Integrator.make_x_vector, hrem]
    norm_num
    rw [hint]
  have hdt : (linspace 0 10 600).getD 1 0 - (linspace 0 10 600).getD 0 0 =
      10 / 599 := by
    rw [show (600 : Nat) = 598 + 2 from rfl, linspace_getD 0 10 598 1 (by omega),
      linspace_getD 0 10 598 0 (by omega)]
    norm_num
  have hrun : Integrator.run integ (fun i => i == 5) 60 10 init_vec (6 + k) =
      Integrator.runLoop integ (fun i => i == 5) (10 / 599) 10 (6 + k) 0 false
        [init_vec] := by
    simp only [Integrator.run, hx, hdt, Nat.reduceBEq]
  rw [hrun]
  rw [show 6 + k = (5 + k) + 1 from by omega, Integrator.runLoop]
  rw [if_pos (And.intro (by norm_num) rfl)]
  simp only [List.length_append, List.length_cons, List.length_nil,
    Bool.false_or, Nat.reduceAdd, Nat.reduceBEq]
  rw [show 5 + k = (4 + k) + 1 from by omega, Integrator.runLoop]
  rw [if_pos (And.intro (by norm_num) rfl)]
  simp only [List.length_append, List.length_cons, List.length_nil,
    Bool.false_or, Nat.reduceAdd, Nat.reduceBEq]
  rw [show 4 + k = (3 + k) + 1 from by omega, Integrator.runLoop]
  rw [if_pos (And.intro (by norm_num) rfl)]
  simp only [List.length_append, List.length_cons, List.length_nil,
    Bool.false_or, Nat.reduceAdd, Nat.reduceBEq]
  rw [show 3 + k = (2 + k) + 1 from by omega, Integrator.runLoop]
  rw [if_pos (And.intro (by norm_num) rfl)]
  simp only [List.length_append, List.length_cons, List.length_nil,
    Bool.false_or, Nat.reduceAdd, Nat.reduceBEq]
  rw [show 2 + k = (1 + k) + 1 from by omega, Integrator.runLoop]
  rw [if_pos (And.intro (by norm_num) rfl)]
  simp only [List.length_append, List.length_cons, List.length_nil,
    Bool.false_or, Nat.reduceAdd, Nat.reduceBEq]
  rw [runLoop_stopped]
  constructor
  · simp
  · intro row hrow
    simp only [List.mem_append, List.mem_singleton, List.mem_cons,
      List.not_mem_nil, or_false] at hrow
    rcases hrow with ((((h | h) | h) | h) | h) | h <;> rw [h]
    · exact hinit
    all_goals exact hinteg _

/-- Witness for C9: a constant external integrator over one scalar
variable, exactly the minimal fuel. -/
theorem claim_C9_early_stop_witness :
    (Integrator.run (fun _ => [0]) (fun i => i == 5) 60 10 [0] 6).length = 6 ∧
    ∀ row ∈ Integrator.run (fun _ => [0]) (fun i => i == 5) 60 10 [0] 6,
      row.length = 1 :=
  claim_C9_early_stop (fun _ => [0]) 1 [0] 6 (Nat.le_refl 6) (fun _ => rfl) rfl

end Npsolve
